import Mathlib

/-!
Shallow embedding of the time-coded volume automation engine of
`scripts/recording_to_als` (files `apply-audio-levels.js` and the two
variants of `index.js`), together with theorems settling the frozen
claims about its specification.

Numbers (JS doubles) are modelled as rationals; byte buffers as
`List Nat`; code that can throw returns `Except String`/`Option`.
-/

namespace LoopDrop

/-- A volume keyframe `{time, beat, value}` as produced by the resolver
and consumed (fields `time` and `value`) by `getVolume`. -/
structure Keyframe where
  time : ℚ
  beat : ℚ
  value : ℚ
deriving DecidableEq, Repr

/-- The default keyframe used by total array-indexing helpers; every use
is guarded by an in-bounds proof in the theorems below. -/
def dfltKF : Keyframe := ⟨0, 0, 0⟩

/-- JS `events[i]` for an `Int` index, total via `getD` (only ever used
at indices proved in bounds). -/
def kfAt (events : List Keyframe) (i : Int) : Keyframe :=
  events.getD i.toNat dfltKF

/-- The `time` field of `events[i]` for a `Nat` index. -/
def timeAt (events : List Keyframe) (i : Nat) : ℚ :=
  (events.getD i dfltKF).time

/-- The `value` field of `events[i]` for a `Nat` index. -/
def valueAt (events : List Keyframe) (i : Nat) : ℚ :=
  (events.getD i dfltKF).value

/-- JS `events[i]` with `undefined` modelled as `none` (negative or
out-of-bounds indices give `undefined`). -/
def jsGet (events : List Keyframe) (i : Int) : Option Keyframe :=
  if i < 0 then none else events.get? i.toNat

/-- The while-loop of the npm `binary-search` package specialised to the
comparator `(a, b) => a.time - b` used by `getVolume`.  The loop is
written with an explicit iteration budget (`fuel`); at every call site
the budget exceeds the interval length, so the `fuel = 0` fallback (it
reports `not found at low`, exactly what the loop returns when it exits
with `low > high`) is never reached. -/
def bsGo (events : List Keyframe) (needle : ℚ) : Nat → Int → Int → Int
  | 0, low, _high => -(low + 1)
  | fuel + 1, low, high =>
    if low ≤ high then
      let mid := low + (high - low) / 2
      if (kfAt events mid).time - needle < 0 then
        bsGo events needle fuel (mid + 1) high
      else if 0 < (kfAt events mid).time - needle then
        bsGo events needle fuel low (mid - 1)
      else
        mid
    else
      -(low + 1)

/-- `bs(events, time, (a, b) => a.time - b)`: binary search over the
whole array, returning the found index or `~insertionPoint`. -/
def bs (events : List Keyframe) (needle : ℚ) : Int :=
  bsGo events needle (events.length + 1) 0 ((events.length : Int) - 1)

/-- `getVolume(time, events)` from `apply-audio-levels.js`. -/
def getVolume (time : ℚ) (events : List Keyframe) : ℚ :=
  if 0 ≤ bs events time then
    (kfAt events (bs events time)).value
  else
    match jsGet events (-(bs events time) - 2), jsGet events (-(bs events time) - 1) with
    | some before, some after =>
        before.value + (after.value - before.value) *
          ((time - before.time) / (after.time - before.time))
    | some before, none => before.value
    | none, some after => after.value
    | none, none => 1

/-- `clip(value, min, max)` from `apply-audio-levels.js`. -/
def clip (value mn mx : ℚ) : ℚ :=
  if value > mx then mx
  else if value < mn then mn
  else value

/-- Strict ascending order of a keyframe array by `time`. -/
def timeSorted (events : List Keyframe) : Prop :=
  events.Pairwise (fun a b => a.time < b.time)

lemma timeSorted_timeAt {events : List Keyframe} (hs : timeSorted events)
    {i j : Nat} (hij : i < j) (hj : j < events.length) :
    timeAt events i < timeAt events j := by
  have h := List.pairwise_iff_getElem.1 hs i j (lt_trans hij hj) hj hij
  rw [timeAt, timeAt, List.getD_eq_getElem?_getD, List.getD_eq_getElem?_getD,
    List.getElem?_eq_getElem (lt_trans hij hj), List.getElem?_eq_getElem hj,
    Option.getD_some, Option.getD_some]
  exact h

lemma jsGet_eq_some {events : List Keyframe} {i : Int} (h0 : 0 ≤ i)
    (hlen : i.toNat < events.length) : jsGet events i = some (kfAt events i) := by
  rw [jsGet, if_neg (by omega), List.get?_eq_getElem?, List.getElem?_eq_getElem hlen,
    kfAt, List.getD_eq_getElem?_getD, List.getElem?_eq_getElem hlen, Option.getD_some]

lemma jsGet_eq_none_of_neg {events : List Keyframe} {i : Int} (h : i < 0) :
    jsGet events i = none := by
  rw [jsGet, if_pos h]

lemma jsGet_eq_none_of_ge {events : List Keyframe} {i : Int}
    (h : events.length ≤ i.toNat) : jsGet events i = none := by
  rw [jsGet]
  split
  · rfl
  · rw [List.get?_eq_getElem?, List.getElem?_eq_none h]

/-- Correctness of the binary-search loop on a strictly `time`-sorted
array: it either finds an exact index or reports (as `~ip`) the
insertion point separating the strictly-smaller from the
strictly-larger keyframes. -/
lemma bsGo_spec (events : List Keyframe) (needle : ℚ)
    (hmono : ∀ i j : Nat, i < j → j < events.length → timeAt events i < timeAt events j) :
    ∀ (fuel : Nat) (low high : Int),
      (high + 1 - low).toNat ≤ fuel →
      0 ≤ low → low ≤ (events.length : Int) → high < (events.length : Int) →
      (∀ i : Nat, i < events.length → (i : Int) < low → timeAt events i < needle) →
      (∀ i : Nat, i < events.length → high < (i : Int) → needle < timeAt events i) →
      (∃ r : Nat, bsGo events needle fuel low high = (r : Int) ∧ r < events.length ∧
        timeAt events r = needle) ∨
      (∃ ip : Nat, bsGo events needle fuel low high = -((ip : Int) + 1) ∧ ip ≤ events.length ∧
        (∀ i : Nat, i < events.length → i < ip → timeAt events i < needle) ∧
        (∀ i : Nat, i < events.length → ip ≤ i → needle < timeAt events i)) := by
  intro fuel
  induction fuel with
  | zero =>
    intro low high hfuel hlow0 hlowlen _hhigh hbelow habove
    right
    refine ⟨low.toNat, ?_, by omega, ?_, ?_⟩
    · simp only [bsGo]
      omega
    · intro i hi hip
      exact hbelow i hi (by omega)
    · intro i hi hip
      exact habove i hi (by omega)
  | succ fuel ih =>
    intro low high hfuel hlow0 hlowlen hhigh hbelow habove
    by_cases hlh : low ≤ high
    · have hd0 : 0 ≤ (high - low) / 2 := Int.ediv_nonneg (by omega) (by norm_num)
      have hd1 : (high - low) / 2 ≤ high - low := Int.ediv_le_self _ (by omega)
      simp only [bsGo]
      rw [if_pos hlh]
      set mid := low + (high - low) / 2 with hmiddef
      have hmidlow : low ≤ mid := by omega
      have hmidhigh : mid ≤ high := by omega
      have hmid0 : 0 ≤ mid := by omega
      have hmidlen : mid.toNat < events.length := by omega
      have hkft : (kfAt events mid).time = timeAt events mid.toNat := rfl
      by_cases hcmp : (kfAt events mid).time - needle < 0
      · rw [if_pos hcmp]
        have hmidt : timeAt events mid.toNat < needle := by
          rw [← hkft]; linarith [sub_neg.mp hcmp]
        refine ih (mid + 1) high (by omega) (by omega) (by omega) hhigh ?_ habove
        intro i hi hilt
        by_cases hcase : (i : Int) < low
        · exact hbelow i hi hcase
        · rcases Nat.lt_or_ge i mid.toNat with h | h
          · exact lt_trans (hmono i mid.toNat h hmidlen) hmidt
          · have : i = mid.toNat := by omega
            rw [this]; exact hmidt
      · rw [if_neg hcmp]
        by_cases hcmp2 : 0 < (kfAt events mid).time - needle
        · rw [if_pos hcmp2]
          have hmidt : needle < timeAt events mid.toNat := by
            rw [← hkft]; linarith [sub_pos.mp hcmp2]
          refine ih low (mid - 1) (by omega) hlow0 hlowlen (by omega) hbelow ?_
          intro i hi higt
          by_cases hcase : high < (i : Int)
          · exact habove i hi hcase
          · rcases Nat.lt_or_ge mid.toNat i with h | h
            · exact lt_trans hmidt (hmono mid.toNat i h hi)
            · have : i = mid.toNat := by omega
              rw [this]; exact hmidt
        · rw [if_neg hcmp2]
          left
          refine ⟨mid.toNat, by omega, hmidlen, ?_⟩
          rw [← hkft]
          linarith [le_of_not_lt hcmp, le_of_not_lt hcmp2]
    · simp only [bsGo]
      rw [if_neg hlh]
      right
      refine ⟨low.toNat, by omega, by omega, ?_, ?_⟩
      · intro i hi hip
        exact hbelow i hi (by omega)
      · intro i hi hip
        exact habove i hi (by omega)

/-- `bs` on a strictly sorted array: exact hit or insertion point. -/
lemma bs_spec (events : List Keyframe) (needle : ℚ)
    (hmono : ∀ i j : Nat, i < j → j < events.length → timeAt events i < timeAt events j) :
    (∃ r : Nat, bs events needle = (r : Int) ∧ r < events.length ∧
      timeAt events r = needle) ∨
    (∃ ip : Nat, bs events needle = -((ip : Int) + 1) ∧ ip ≤ events.length ∧
      (∀ i : Nat, i < events.length → i < ip → timeAt events i < needle) ∧
      (∀ i : Nat, i < events.length → ip ≤ i → needle < timeAt events i)) := by
  refine bsGo_spec events needle hmono (events.length + 1) 0 ((events.length : Int) - 1)
    (by omega) (by omega) (by omega) (by omega) ?_ ?_
  · intro i _ h
    exact absurd h (by omega)
  · intro i hi h
    exact absurd h (by omega)

lemma kfAt_natCast (events : List Keyframe) (i : Nat) :
    kfAt events (i : Int) = events.getD i dfltKF := by
  rw [kfAt, Int.toNat_natCast]

/-- Exact-match branch of `getVolume`. -/
lemma getVolume_exact {events : List Keyframe} (hs : timeSorted events)
    {i : Nat} (hi : i < events.length) {t : ℚ} (ht : timeAt events i = t) :
    getVolume t events = valueAt events i := by
  have hmono : ∀ a b : Nat, a < b → b < events.length →
      timeAt events a < timeAt events b := fun a b hab hb => timeSorted_timeAt hs hab hb
  rcases bs_spec events t hmono with ⟨r, hr, hrlen, hrt⟩ | ⟨ip, hip, _, hbelow, habove⟩
  · have hri : r = i := by
      rcases lt_trichotomy r i with h | h | h
      · exact absurd (hmono r i h hi) (by rw [hrt, ht]; exact lt_irrefl t)
      · exact h
      · exact absurd (hmono i r h hrlen) (by rw [hrt, ht]; exact lt_irrefl t)
    rw [getVolume, hr, if_pos (by positivity), kfAt_natCast, hri]
    rfl
  · rcases Nat.lt_or_ge i ip with h | h
    · exact absurd (hbelow i hi h) (by rw [ht]; exact lt_irrefl t)
    · exact absurd (habove i hi h) (by rw [ht]; exact lt_irrefl t)

/-- Interpolation branch of `getVolume`: query strictly between two
consecutive keyframes. -/
lemma getVolume_between {events : List Keyframe} (hs : timeSorted events)
    {i : Nat} (hi1 : i + 1 < events.length) {t : ℚ}
    (hlt : timeAt events i < t) (hgt : t < timeAt events (i + 1)) :
    getVolume t events = valueAt events i + (valueAt events (i + 1) - valueAt events i) *
      ((t - timeAt events i) / (timeAt events (i + 1) - timeAt events i)) := by
  have hi : i < events.length := by omega
  have hmono : ∀ a b : Nat, a < b → b < events.length →
      timeAt events a < timeAt events b := fun a b hab hb => timeSorted_timeAt hs hab hb
  rcases bs_spec events t hmono with ⟨r, hr, hrlen, hrt⟩ | ⟨ip, hip, hiplen, hbelow, habove⟩
  · exfalso
    rcases Nat.lt_or_ge r (i + 1) with h | h
    · rcases Nat.lt_or_ge r i with h2 | h2
      · exact absurd (hmono r i h2 hi) (by rw [hrt]; exact not_lt.2 (le_of_lt hlt))
      · have : r = i := by omega
        rw [this] at hrt
        exact absurd hrt (ne_of_lt hlt)
    · rcases Nat.lt_or_ge (i + 1) r with h2 | h2
      · exact absurd (hmono (i + 1) r h2 hrlen) (by rw [hrt]; exact not_lt.2 (le_of_lt hgt))
      · have : r = i + 1 := by omega
        rw [this] at hrt
        exact absurd hrt (ne_of_gt hgt)
  · have hipi : ip = i + 1 := by
      rcases Nat.lt_or_ge i ip with h | h
      · rcases Nat.lt_or_ge ip (i + 2) with h2 | h2
        · omega
        · exact absurd (hbelow (i + 1) hi1 (by omega)) (not_lt.2 (le_of_lt hgt))
      · exact absurd (habove i hi h) (not_lt.2 (le_of_lt hlt))
    subst hipi
    rw [getVolume, hip, if_neg (by omega)]
    have h2 : -(-((i + 1 : Nat) + 1 : Int)) - 2 = (i : Int) := by omega
    have h1 : -(-((i + 1 : Nat) + 1 : Int)) - 1 = ((i + 1 : Nat) : Int) := by omega
    rw [h2, h1, jsGet_eq_some (by omega) (by omega), jsGet_eq_some (by omega) (by omega),
      kfAt_natCast, kfAt_natCast]
    simp only [Int.toNat_natCast]
    rfl

/-- Hold-last branch: query strictly after the last keyframe. -/
lemma getVolume_after {events : List Keyframe} (hs : timeSorted events)
    (hne : 0 < events.length) {t : ℚ} (hgt : timeAt events (events.length - 1) < t) :
    getVolume t events = valueAt events (events.length - 1) := by
  have hmono : ∀ a b : Nat, a < b → b < events.length →
      timeAt events a < timeAt events b := fun a b hab hb => timeSorted_timeAt hs hab hb
  rcases bs_spec events t hmono with ⟨r, hr, hrlen, hrt⟩ | ⟨ip, hip, hiplen, hbelow, habove⟩
  · exfalso
    rcases Nat.lt_or_ge r (events.length - 1) with h | h
    · exact absurd (hmono r (events.length - 1) h (by omega))
        (by rw [hrt]; exact not_lt.2 (le_of_lt hgt))
    · have : r = events.length - 1 := by omega
      rw [this] at hrt
      exact absurd hrt (ne_of_lt hgt)
  · have hiplen' : ip = events.length := by
      rcases Nat.lt_or_ge ip events.length with h | h
      · exact absurd (habove (events.length - 1) (by omega) (by
          rcases Nat.lt_or_ge (events.length - 1) ip with h2 | h2
          · exfalso
            exact absurd (habove ip (by omega) (le_refl ip)) (by
              rcases Nat.lt_or_ge ip (events.length - 1) with h3 | h3
              · exact not_lt.2 (le_of_lt (lt_trans (hmono ip (events.length - 1) h3 (by omega)) hgt))
              · omega)
          · exact h2)) (not_lt.2 (le_of_lt hgt))
      · omega
    subst hiplen'
    rw [getVolume, hip, if_neg (by omega)]
    have h2 : -(-((events.length : Nat) + 1 : Int)) - 2 = ((events.length - 1 : Nat) : Int) := by
      omega
    have h1 : -(-((events.length : Nat) + 1 : Int)) - 1 = ((events.length : Nat) : Int) := by omega
    rw [h2, h1, jsGet_eq_some (by omega) (by omega),
      jsGet_eq_none_of_ge (by simp only [Int.toNat_natCast]; exact le_refl _),
      kfAt_natCast]
    rfl

/-- Hold-first branch: query strictly before the first keyframe. -/
lemma getVolume_before {events : List Keyframe} (hs : timeSorted events)
    (hne : 0 < events.length) {t : ℚ} (hlt : t < timeAt events 0) :
    getVolume t events = valueAt events 0 := by
  have hmono : ∀ a b : Nat, a < b → b < events.length →
      timeAt events a < timeAt events b := fun a b hab hb => timeSorted_timeAt hs hab hb
  rcases bs_spec events t hmono with ⟨r, hr, hrlen, hrt⟩ | ⟨ip, hip, hiplen, hbelow, habove⟩
  · exfalso
    rcases Nat.eq_zero_or_pos r with h | h
    · rw [h] at hrt
      exact absurd hrt (ne_of_gt hlt)
    · exact absurd (lt_trans hlt (hmono 0 r h hrlen)) (by rw [hrt]; exact lt_irrefl t)
  · have hip0 : ip = 0 := by
      rcases Nat.eq_zero_or_pos ip with h | h
      · exact h
      · exact absurd (hbelow 0 hne (by omega)) (not_lt.2 (le_of_lt hlt))
    subst hip0
    rw [getVolume, hip, if_neg (by omega)]
    have h2 : -(-((0 : Nat) + 1 : Int)) - 2 = (-1 : Int) := by omega
    have h1 : -(-((0 : Nat) + 1 : Int)) - 1 = ((0 : Nat) : Int) := by omega
    rw [h2, h1, jsGet_eq_none_of_neg (by omega), jsGet_eq_some (by omega) (by omega),
      kfAt_natCast]
    rfl

/-- Empty keyframe array: identity gain. -/
lemma getVolume_nil (t : ℚ) : getVolume t [] = 1 := rfl

lemma jsGet_some {events : List Keyframe} {i : Int} {x : Keyframe}
    (h : jsGet events i = some x) :
    0 ≤ i ∧ i.toNat < events.length ∧ x = kfAt events i := by
  have h0 : ¬ i < 0 := by
    intro hneg
    rw [jsGet_eq_none_of_neg hneg] at h
    cases h
  have hlen : i.toNat < events.length := by
    by_contra hge
    rw [jsGet_eq_none_of_ge (by omega)] at h
    cases h
  refine ⟨by omega, hlen, ?_⟩
  rw [jsGet_eq_some (by omega) hlen] at h
  exact (Option.some_inj.mp h).symm

/-- The keyframe pair `[(0, 0.2), (1, 0.8)]` named by the spec's
interpolation test. -/
def exampleKF : List Keyframe := [⟨0, 0, 0.2⟩, ⟨1, 0, 0.8⟩]

/-- Claim C1: on a strictly time-ascending keyframe sequence, `getVolume`
returns the keyframe's gain on an exact time match, the linear
interpolation `before.gain + (after.gain - before.gain) * (t - before.time)
/ (after.time - before.time)` strictly between two consecutive keyframes,
the last gain after the last keyframe, the first gain before the first
keyframe, and 1 on the empty sequence; for keyframes
`[(0, 0.2), (1, 0.8)]`, time 0.5 yields 0.5, time -1 yields 0.2 and time 2
yields 0.8. -/
theorem c1_getVolume_characterization (events : List Keyframe) (t : ℚ)
    (hs : timeSorted events) :
    (∀ i : Nat, i < events.length → timeAt events i = t →
      getVolume t events = valueAt events i) ∧
    (∀ i : Nat, i + 1 < events.length → timeAt events i < t → t < timeAt events (i + 1) →
      getVolume t events = valueAt events i + (valueAt events (i + 1) - valueAt events i) *
        ((t - timeAt events i) / (timeAt events (i + 1) - timeAt events i))) ∧
    (0 < events.length → timeAt events (events.length - 1) < t →
      getVolume t events = valueAt events (events.length - 1)) ∧
    (0 < events.length → t < timeAt events 0 → getVolume t events = valueAt events 0) ∧
    getVolume t [] = 1 ∧
    getVolume (1/2) exampleKF = 1/2 ∧ getVolume (-1) exampleKF = 1/5 ∧
    getVolume 2 exampleKF = 4/5 := by
  refine ⟨fun i hi ht => getVolume_exact hs hi ht,
    fun i hi1 hlt hgt => getVolume_between hs hi1 hlt hgt,
    fun hne hgt => getVolume_after hs hne hgt,
    fun hne hlt => getVolume_before hs hne hlt,
    getVolume_nil t, ?_, ?_, ?_⟩ <;>
  norm_num [getVolume, bs, bsGo, kfAt, jsGet, exampleKF, dfltKF,
    show ((2 : ℤ).toNat = 2) from rfl]

/-- Witness for C1 at the spec's own example input. -/
theorem c1_witness :
    timeSorted exampleKF ∧ getVolume (1/2) exampleKF = 1/2 :=
  ⟨by simp [timeSorted, exampleKF],
   (c1_getVolume_characterization exampleKF (1/2)
      (by simp [timeSorted, exampleKF])).2.2.2.2.2.1⟩

/-- Claim C10: for a strictly time-sorted keyframe array the lookup is
safe: a found binary-search index is in bounds, a not-found result
encodes an insertion point between 0 and the length (so the derived
`before`/`after` indices are either in bounds or rejected by the
existence guards), and whenever both `before` and `after` exist the
interpolation divisor `after.time - before.time` is strictly positive. -/
theorem c10_lookup_safety (events : List Keyframe) (t : ℚ) (hs : timeSorted events) :
    (0 ≤ bs events t → (bs events t).toNat < events.length) ∧
    (bs events t < 0 → 0 ≤ -(bs events t) - 1 ∧ -(bs events t) - 1 ≤ (events.length : Int)) ∧
    (∀ b a : Keyframe, jsGet events (-(bs events t) - 2) = some b →
      jsGet events (-(bs events t) - 1) = some a → 0 < a.time - b.time) := by
  have hmono : ∀ i j : Nat, i < j → j < events.length →
      timeAt events i < timeAt events j := fun i j hij hj => timeSorted_timeAt hs hij hj
  rcases bs_spec events t hmono with ⟨r, hr, hrlen, _⟩ | ⟨ip, hip, hiplen, hbelow, habove⟩
  · refine ⟨fun _ => ?_, fun hneg => absurd hneg (by omega), fun b a hb _ => ?_⟩
    · rw [hr, Int.toNat_natCast]
      exact hrlen
    · rw [hr, jsGet_eq_none_of_neg (by omega)] at hb
      cases hb
  · refine ⟨fun hpos => absurd hpos (by omega), fun _ => by omega, fun b a hb ha => ?_⟩
    rw [hip] at hb ha
    obtain ⟨hb0, hblen, hbeq⟩ := jsGet_some hb
    obtain ⟨ha0, halen, haeq⟩ := jsGet_some ha
    have hib : (-(-((ip : Int) + 1)) - 2).toNat = ip - 1 := by omega
    have hia : (-(-((ip : Int) + 1)) - 1).toNat = ip := by omega
    have hbt : b.time = timeAt events (ip - 1) := by
      rw [hbeq, kfAt, hib]; rfl
    have hat : a.time = timeAt events ip := by
      rw [haeq, kfAt, hia]; rfl
    have h1 : timeAt events (ip - 1) < t := hbelow (ip - 1) (by omega) (by omega)
    have h2 : t < timeAt events ip := habove ip (by omega) (le_refl ip)
    rw [hbt, hat]
    linarith

/-- Witness for C10 at a concrete sorted array and query. -/
theorem c10_witness :
    timeSorted exampleKF ∧
    (0 ≤ bs exampleKF (3/4) → (bs exampleKF (3/4)).toNat < exampleKF.length) :=
  ⟨by simp [timeSorted, exampleKF],
   (c10_lookup_safety exampleKF (3/4)
      (by simp [timeSorted, exampleKF])).1⟩

/-! ## Streaming gain applicator (`apply-audio-levels.js` transform) -/

/-- Byte order tag of the wav format header. -/
inductive Endianness where
  | le
  | be
deriving DecidableEq, Repr

/-- The wav `format` object fields consumed by the applicator. -/
structure Format where
  sampleRate : Nat
  channels : Nat
  bitDepth : Nat
  endianness : Endianness
  blockAlign : Nat
  byteRate : Nat
deriving DecidableEq, Repr

/-- Node `buf.readInt16LE(offset)`: two's-complement decode of two bytes,
`none` when the access would run past the end of the buffer (Node throws
a range error there). -/
def readInt16LE (buf : List Nat) (offset : Nat) : Option Int :=
  match buf.get? offset, buf.get? (offset + 1) with
  | some b0, some b1 =>
    let u := b0 + 256 * b1
    some (if u < 32768 then (u : Int) else (u : Int) - 65536)
  | _, _ => none

/-- JS `ToInteger`: truncation of a double (here a rational) toward 0. -/
def jsTrunc (q : ℚ) : Int :=
  if 0 ≤ q then ⌊q⌋ else ⌈q⌉

/-- The byte pair stored by Node `buf.writeInt16LE(value, …)`: `none` when
the value fails the signed-16-bit range check (Node throws), otherwise the
little-endian bytes of the truncated value. -/
def writeInt16LEBytes (v : ℚ) : Option (Nat × Nat) :=
  if -32768 ≤ v ∧ v ≤ 32767 then
    let u := ((jsTrunc v) % 65536).toNat
    some (u % 256, u / 256)
  else none

/-- Node `buf.writeInt16LE(value, offset)` on a byte-list buffer. -/
def bufWriteInt16LE (buf : List Nat) (v : ℚ) (offset : Nat) : Option (List Nat) :=
  if offset + 2 ≤ buf.length then
    match writeInt16LEBytes v with
    | some (b0, b1) => some ((buf.set offset b0).set (offset + 1) b1)
    | none => none
  else none

/-- `readFormat(buf, offset, format)` from `apply-audio-levels.js`. -/
def readFormat (buf : List Nat) (offset : Nat) (fmt : Format) : Except String Int :=
  if fmt.bitDepth = 16 ∧ fmt.endianness = Endianness.le then
    match readInt16LE buf offset with
    | some v => .ok v
    | none => .error "ERR_OUT_OF_RANGE"
  else .error "Unsupported format"

/-- `writeFormat(buf, value, offset, format)` from `apply-audio-levels.js`:
clips to the signed 16-bit range and writes in place. -/
def writeFormat (buf : List Nat) (value : ℚ) (offset : Nat) (fmt : Format) :
    Except String (List Nat) :=
  if fmt.bitDepth = 16 ∧ fmt.endianness = Endianness.le then
    match bufWriteInt16LE buf (clip value (-32768) 32767) offset with
    | some buf2 => .ok buf2
    | none => .error "ERR_OUT_OF_RANGE"
  else .error "Unsupported format"

/-- JS `channelBytes * channel` used as a buffer offset: Node accepts it
only when it is a non-negative integer. -/
def ratToOffset (q : ℚ) : Option Nat :=
  if q.den = 1 ∧ 0 ≤ q.num then some q.num.toNat else none

/-- The inner `for (channel …)` loop of the transform; `rem` counts the
remaining channels, so the current channel index is
`fmt.channels - rem`. -/
def channelLoop (fmt : Format) (levels : List Keyframe) (processed i : Nat) :
    Nat → Nat → List Nat → Except String (List Nat)
  | 0, _channel, buf => .ok buf
  | rem + 1, channel, buf =>
    match ratToOffset ((fmt.blockAlign : ℚ) / (fmt.channels : ℚ) * (channel : ℚ)) with
    | none => .error "ERR_OUT_OF_RANGE"
    | some co =>
      match readFormat buf (i + co) fmt with
      | .error e => .error e
      | .ok value =>
        match writeFormat buf
            ((value : ℚ) * getVolume (((processed + i : Nat) : ℚ) / (fmt.byteRate : ℚ)) levels)
            (i + co) fmt with
        | .error e => .error e
        | .ok buf2 => channelLoop fmt levels processed i rem (channel + 1) buf2

/-- The outer `for (i …; i += format.blockAlign)` loop of the transform,
written with an explicit iteration budget (`fuel`); the budget always
exceeds the number of frames in the chunk, so the `fuel = 0` fallback is
unreachable for well-formed formats. -/
def transformGo (fmt : Format) (levels : List Keyframe) (processed : Nat) :
    Nat → List Nat → Nat → Except String (List Nat)
  | 0, _buf, _i => .error "loop budget exhausted"
  | fuel + 1, buf, i =>
    if i < buf.length then
      match channelLoop fmt levels processed i fmt.channels 0 buf with
      | .error e => .error e
      | .ok buf2 => transformGo fmt levels processed fuel buf2 (i + fmt.blockAlign)
    else .ok buf

/-- One invocation of the `Transform` callback on one chunk. -/
def transformChunk (fmt : Format) (levels : List Keyframe) (processed : Nat)
    (chunk : List Nat) : Except String (List Nat) :=
  transformGo fmt levels processed (chunk.length + 1) chunk 0

/-- The whole stream: each chunk is transformed and pushed, and
`processed` advances by the chunk's byte length. -/
def applyChunks (fmt : Format) (levels : List Keyframe) :
    Nat → List (List Nat) → Except String (List (List Nat))
  | _, [] => .ok []
  | processed, chunk :: rest =>
    match transformChunk fmt levels processed chunk with
    | .error e => .error e
    | .ok chunk2 =>
      match applyChunks fmt levels (processed + chunk.length) rest with
      | .error e => .error e
      | .ok rest2 => .ok (chunk2 :: rest2)

/-- The applicator pipeline: the writer is created with the reader's
`format` object unchanged, and receives the transformed chunks. -/
def applyGain (fmt : Format) (levels : List Keyframe) (chunks : List (List Nat)) :
    Except String (Format × List (List Nat)) :=
  match applyChunks fmt levels 0 chunks with
  | .ok out => .ok (fmt, out)
  | .error e => .error e

/-- The format family actually supported: signed 16-bit little-endian
interleaved PCM with at least one channel and the frame size implied by
the header (`blockAlign = 2 bytes × channels`). -/
def WellFormed (fmt : Format) : Prop :=
  fmt.bitDepth = 16 ∧ fmt.endianness = Endianness.le ∧
    1 ≤ fmt.channels ∧ fmt.blockAlign = 2 * fmt.channels

instance : DecidablePred WellFormed := fun fmt => by
  unfold WellFormed
  infer_instance

lemma clip_16_mem (v : ℚ) :
    -32768 ≤ clip v (-32768) 32767 ∧ clip v (-32768) 32767 ≤ 32767 := by
  unfold clip
  split_ifs with h1 h2
  · constructor <;> norm_num
  · constructor <;> norm_num
  · constructor <;> linarith

lemma writeInt16LEBytes_isSome_of_mem {v : ℚ} (h1 : -32768 ≤ v) (h2 : v ≤ 32767) :
    ∃ p, writeInt16LEBytes v = some p := by
  rw [writeInt16LEBytes, if_pos ⟨h1, h2⟩]
  exact ⟨_, rfl⟩

lemma bufWriteInt16LE_clip_ok (buf : List Nat) (offset : Nat) (v : ℚ)
    (hoff : offset + 2 ≤ buf.length) :
    ∃ out, bufWriteInt16LE buf (clip v (-32768) 32767) offset = some out ∧
      out.length = buf.length := by
  obtain ⟨⟨b0, b1⟩, hp⟩ :=
    writeInt16LEBytes_isSome_of_mem (clip_16_mem v).1 (clip_16_mem v).2
  rw [bufWriteInt16LE, if_pos hoff, hp]
  exact ⟨_, rfl, by simp⟩

lemma readInt16LE_isSome (buf : List Nat) (offset : Nat) (hoff : offset + 2 ≤ buf.length) :
    ∃ v, readInt16LE buf offset = some v := by
  rw [readInt16LE, List.get?_eq_getElem?, List.get?_eq_getElem?,
    List.getElem?_eq_getElem (by omega : offset < buf.length),
    List.getElem?_eq_getElem (by omega : offset + 1 < buf.length)]
  exact ⟨_, rfl⟩

lemma ratToOffset_wf {fmt : Format} (hwf : WellFormed fmt) (channel : Nat) :
    ratToOffset ((fmt.blockAlign : ℚ) / (fmt.channels : ℚ) * (channel : ℚ)) =
      some (2 * channel) := by
  obtain ⟨_, _, hch, hba⟩ := hwf
  have hcne : (fmt.channels : ℚ) ≠ 0 := Nat.cast_ne_zero.mpr (by omega)
  have hq : (fmt.blockAlign : ℚ) / (fmt.channels : ℚ) * (channel : ℚ) =
      ((2 * channel : Nat) : ℚ) := by
    rw [hba]
    push_cast
    field_simp
  rw [hq, ratToOffset, if_pos ⟨Rat.den_natCast _, by simp⟩]
  simp only [Rat.num_natCast, Int.toNat_natCast]

lemma channelLoop_ok {fmt : Format} (levels : List Keyframe) (processed i : Nat)
    (hwf : WellFormed fmt) :
    ∀ (rem channel : Nat) (buf : List Nat), channel + rem = fmt.channels →
      i + fmt.blockAlign ≤ buf.length →
      ∃ out, channelLoop fmt levels processed i rem channel buf = .ok out ∧
        out.length = buf.length := by
  intro rem
  induction rem with
  | zero =>
    intro channel buf _ _
    exact ⟨buf, rfl, rfl⟩
  | succ rem ih =>
    intro channel buf hch hle
    have hba : fmt.blockAlign = 2 * fmt.channels := hwf.2.2.2
    obtain ⟨v, hv⟩ := readInt16LE_isSome buf (i + 2 * channel) (by omega)
    obtain ⟨wout, hw, hwlen⟩ := bufWriteInt16LE_clip_ok buf (i + 2 * channel)
      ((v : ℚ) * getVolume (((processed + i : Nat) : ℚ) / (fmt.byteRate : ℚ)) levels)
      (by omega)
    obtain ⟨out, hout, houtlen⟩ := ih (channel + 1) wout (by omega) (by omega)
    refine ⟨out, ?_, by omega⟩
    simp only [channelLoop, ratToOffset_wf hwf channel, readFormat, writeFormat,
      if_pos (show fmt.bitDepth = 16 ∧ fmt.endianness = Endianness.le from ⟨hwf.1, hwf.2.1⟩),
      hv, hw]
    exact hout

lemma transformGo_ok {fmt : Format} (levels : List Keyframe) (processed : Nat)
    (hwf : WellFormed fmt) :
    ∀ (fuel : Nat) (buf : List Nat) (i : Nat), buf.length - i < fuel →
      fmt.blockAlign ∣ (buf.length - i) →
      ∃ out, transformGo fmt levels processed fuel buf i = .ok out ∧
        out.length = buf.length := by
  intro fuel
  induction fuel with
  | zero =>
    intro buf i hlt _
    exact absurd hlt (by omega)
  | succ fuel ih =>
    intro buf i hlt hdvd
    by_cases hi : i < buf.length
    · have hch : 1 ≤ fmt.channels := hwf.2.2.1
      have hba : fmt.blockAlign = 2 * fmt.channels := hwf.2.2.2
      have hle : i + fmt.blockAlign ≤ buf.length := by
        rcases hdvd with ⟨k, hk⟩
        rcases Nat.eq_zero_or_pos k with hk0 | hk0
        · subst hk0
          simp at hk
          omega
        · have := Nat.mul_le_mul_left fmt.blockAlign hk0
          omega
      obtain ⟨buf2, hbuf2, hlen2⟩ :=
        channelLoop_ok levels processed i hwf fmt.channels 0 buf (by omega) hle
      obtain ⟨out, hout, houtlen⟩ := ih buf2 (i + fmt.blockAlign)
        (by omega) (by
          have h2 : buf2.length - (i + fmt.blockAlign) = buf.length - i - fmt.blockAlign := by
            omega
          rw [h2]
          exact Nat.dvd_sub' hdvd dvd_rfl)
      refine ⟨out, ?_, by omega⟩
      rw [transformGo, if_pos hi, hbuf2]
      exact hout
    · rw [transformGo, if_neg hi]
      exact ⟨buf, rfl, rfl⟩

lemma transformChunk_ok {fmt : Format} (levels : List Keyframe) (processed : Nat)
    (hwf : WellFormed fmt) (chunk : List Nat) (hdvd : fmt.blockAlign ∣ chunk.length) :
    ∃ out, transformChunk fmt levels processed chunk = .ok out ∧
      out.length = chunk.length := by
  exact transformGo_ok levels processed hwf (chunk.length + 1) chunk 0 (by omega)
    (by simpa using hdvd)

lemma applyChunks_ok {fmt : Format} (levels : List Keyframe)
    (hwf : WellFormed fmt) :
    ∀ (chunks : List (List Nat)) (processed : Nat),
      (∀ c ∈ chunks, fmt.blockAlign ∣ c.length) →
      ∃ out, applyChunks fmt levels processed chunks = .ok out ∧
        out.map List.length = chunks.map List.length := by
  intro chunks
  induction chunks with
  | nil =>
    intro processed _
    exact ⟨[], rfl, rfl⟩
  | cons chunk rest ih =>
    intro processed hdvd
    obtain ⟨c2, hc2, hc2len⟩ := transformChunk_ok levels processed hwf chunk
      (hdvd chunk (List.mem_cons_self _ _))
    obtain ⟨r2, hr2, hr2len⟩ := ih (processed + chunk.length)
      (fun c hc => hdvd c (List.mem_cons_of_mem _ hc))
    refine ⟨c2 :: r2, ?_, by simp [hc2len, hr2len]⟩
    simp only [applyChunks, hc2, hr2]

/-- Claim C3: for every input PCM stream in the supported format (chunks
aligned to the frame size), applying the gain transform succeeds, hands
the writer the unchanged `format` header (same sample rate, channel
count, bit depth, byte order) and produces chunks of exactly the same
byte lengths — hence exactly the same frame count; only sample
magnitudes are altered. -/
theorem c3_format_preservation (fmt : Format) (levels : List Keyframe)
    (chunks : List (List Nat)) (hwf : WellFormed fmt)
    (hdvd : ∀ c ∈ chunks, fmt.blockAlign ∣ c.length) :
    ∃ out, applyGain fmt levels chunks = .ok (fmt, out) ∧
      out.map List.length = chunks.map List.length := by
  obtain ⟨out, hout, hlen⟩ := applyChunks_ok levels hwf chunks 0 hdvd
  refine ⟨out, ?_, hlen⟩
  rw [applyGain, hout]

/-- The 16-bit little-endian mono format used as a concrete witness
input. -/
def fmt16 : Format :=
  { sampleRate := 44100, channels := 1, bitDepth := 16,
    endianness := Endianness.le, blockAlign := 2, byteRate := 88200 }

/-- Witness for C3: one two-byte frame, a non-trivial gain curve. -/
theorem c3_witness :
    ∃ out, applyGain fmt16 [⟨0, 0, 2⟩] [[100, 0]] = .ok (fmt16, out) ∧
      out.map List.length = [[(100 : Nat), 0]].map List.length :=
  c3_format_preservation fmt16 [⟨0, 0, 2⟩] [[100, 0]] (by decide) (by decide)

/-- Claim C8: the value handed to the 16-bit write is the product
`sample × gain` clamped to the signed 16-bit range — above-range results
become exactly 32767, below-range exactly -32768, in-range results are
passed unchanged — so the write's out-of-range failure branch is
unreachable: `writeInt16LEBytes` always succeeds on the clipped value
and `writeFormat` succeeds whenever the offset is in bounds. -/
theorem c8_clip_no_wrap (s : Int) (g : ℚ) (buf : List Nat) (offset : Nat) (fmt : Format)
    (h16 : fmt.bitDepth = 16) (hle : fmt.endianness = Endianness.le)
    (hoff : offset + 2 ≤ buf.length) :
    (32767 < (s : ℚ) * g → clip ((s : ℚ) * g) (-32768) 32767 = 32767) ∧
    ((s : ℚ) * g < -32768 → clip ((s : ℚ) * g) (-32768) 32767 = -32768) ∧
    (-32768 ≤ (s : ℚ) * g → (s : ℚ) * g ≤ 32767 →
      clip ((s : ℚ) * g) (-32768) 32767 = (s : ℚ) * g) ∧
    (∃ p, writeInt16LEBytes (clip ((s : ℚ) * g) (-32768) 32767) = some p) ∧
    (∃ out, writeFormat buf ((s : ℚ) * g) offset fmt = .ok out) := by
  refine ⟨?_, ?_, ?_, ?_, ?_⟩
  · intro h
    rw [clip, if_pos h]
  · intro h
    rw [clip, if_neg (by linarith), if_pos h]
  · intro h1 h2
    rw [clip, if_neg (by linarith), if_neg (by linarith)]
  · exact writeInt16LEBytes_isSome_of_mem (clip_16_mem _).1 (clip_16_mem _).2
  · obtain ⟨out, hw, _⟩ := bufWriteInt16LE_clip_ok buf offset ((s : ℚ) * g) hoff
    refine ⟨out, ?_⟩
    rw [writeFormat, if_pos ⟨h16, hle⟩, hw]

/-- Witness for C8: a product far above the 16-bit range. -/
theorem c8_witness :
    32767 < ((2 : Int) : ℚ) * 20000 ∧
      clip (((2 : Int) : ℚ) * 20000) (-32768) 32767 = 32767 := by
  have h := (c8_clip_no_wrap 2 20000 [0, 0] 0 fmt16 (by decide) (by decide) (by decide)).1
  norm_num at h ⊢
  exact h

/-- The channel-0 offset: `channelBytes * 0` is always the integer 0. -/
lemma ratToOffset_zero (q : ℚ) : ratToOffset (q * ((0 : Nat) : ℚ)) = some 0 := by
  norm_num [ratToOffset]

/-- Claim C9: `readFormat`/`writeFormat` raise the error
`Unsupported format` exactly when the header is not signed 16-bit
little-endian, and on an unsupported header the transform fails with
that error instead of producing output (given at least one byte to
process and at least one channel). -/
theorem c9_unsupported_format (fmt : Format) (buf : List Nat) (offset : Nat) (v : ℚ)
    (levels : List Keyframe) (processed : Nat)
    (hch : 1 ≤ fmt.channels) (hbuf : 1 ≤ buf.length) :
    ((readFormat buf offset fmt = .error "Unsupported format") ↔
      ¬(fmt.bitDepth = 16 ∧ fmt.endianness = Endianness.le)) ∧
    ((writeFormat buf v offset fmt = .error "Unsupported format") ↔
      ¬(fmt.bitDepth = 16 ∧ fmt.endianness = Endianness.le)) ∧
    (¬(fmt.bitDepth = 16 ∧ fmt.endianness = Endianness.le) →
      transformChunk fmt levels processed buf = .error "Unsupported format") := by
  refine ⟨⟨?_, ?_⟩, ⟨?_, ?_⟩, ?_⟩
  · intro h hsup
    rw [readFormat, if_pos hsup] at h
    cases hread : readInt16LE buf offset with
    | none =>
      rw [hread] at h
      simp at h
    | some w =>
      rw [hread] at h
      cases h
  · intro hsup
    rw [readFormat, if_neg hsup]
  · intro h hsup
    rw [writeFormat, if_pos hsup] at h
    cases hw : bufWriteInt16LE buf (clip v (-32768) 32767) offset with
    | none =>
      rw [hw] at h
      simp at h
    | some w =>
      rw [hw] at h
      cases h
  · intro hsup
    rw [writeFormat, if_neg hsup]
  · intro hsup
    obtain ⟨c, hc⟩ : ∃ c, fmt.channels = c + 1 := ⟨fmt.channels - 1, by omega⟩
    rw [transformChunk]
    obtain ⟨n, hn⟩ : ∃ n, buf.length + 1 = n + 1 := ⟨buf.length, rfl⟩
    rw [hn, transformGo, if_pos (by omega), hc]
    simp only [channelLoop, ratToOffset_zero, readFormat, if_neg hsup]

/-- Witness for C9: a 24-bit header is rejected with the exact error. -/
theorem c9_witness :
    transformChunk
      { sampleRate := 44100, channels := 1, bitDepth := 24,
        endianness := Endianness.le, blockAlign := 3, byteRate := 132300 }
      [] 0 [0, 0, 0] = .error "Unsupported format" :=
  (c9_unsupported_format
    { sampleRate := 44100, channels := 1, bitDepth := 24,
      endianness := Endianness.le, blockAlign := 3, byteRate := 132300 }
    [0, 0, 0] 0 0 [] 0 (by decide) (by decide)).2.2 (by decide)

/-- Writing back the byte a position already holds leaves the buffer
unchanged. -/
lemma set_get_self : ∀ (l : List Nat) (n : Nat) (a : Nat),
    l.get? n = some a → l.set n a = l
  | [], _, _, h => by cases h
  | b :: t, 0, a, h => by
    rw [List.get?_cons_zero] at h
    rw [List.set_cons_zero, Option.some_inj.mp h]
  | b :: t, n + 1, a, h => by
    rw [List.get?_cons_succ] at h
    rw [List.set_cons_succ, set_get_self t n a h]

/-- Truncation is the identity on integers. -/
lemma jsTrunc_intCast (n : Int) : jsTrunc (n : ℚ) = n := by
  rw [jsTrunc]
  split_ifs with h
  · exact Int.floor_intCast n
  · exact Int.ceil_intCast n

/-- `clip` is the identity on in-range values. -/
lemma clip_of_mem {x : ℚ} (h1 : -32768 ≤ x) (h2 : x ≤ 32767) :
    clip x (-32768) 32767 = x := by
  rw [clip, if_neg (by linarith), if_neg (by linarith)]

/-- Round trip on one sample: reading a 16-bit value from a well-formed
byte buffer gives an in-range value, and writing that same value back
re-encodes the very same bytes, leaving the buffer unchanged. -/
lemma read_write_id {buf : List Nat} (hb : ∀ b ∈ buf, b < 256) (offset : Nat) {v : Int}
    (hoff : offset + 2 ≤ buf.length) (h : readInt16LE buf offset = some v) :
    (-32768 : ℚ) ≤ (v : ℚ) ∧ (v : ℚ) ≤ 32767 ∧
      bufWriteInt16LE buf (v : ℚ) offset = some buf := by
  rcases hb0e : buf.get? offset with _ | b0
  · rw [readInt16LE, hb0e] at h
    cases h
  rcases hb1e : buf.get? (offset + 1) with _ | b1
  · rw [readInt16LE, hb0e, hb1e] at h
    cases h
  have hb0 : b0 < 256 := hb _ (List.get?_mem hb0e)
  have hb1 : b1 < 256 := hb _ (List.get?_mem hb1e)
  rw [readInt16LE, hb0e, hb1e] at h
  simp only [Option.some_inj] at h
  have hrange : -32768 ≤ v ∧ v ≤ 32767 := by
    rw [← h]
    split_ifs with hu <;> constructor <;> omega
  have hmod : (v % 65536).toNat = b0 + 256 * b1 := by
    rw [← h]
    split_ifs with hu <;> omega
  refine ⟨by exact_mod_cast hrange.1, by exact_mod_cast hrange.2, ?_⟩
  rw [bufWriteInt16LE, if_pos hoff, writeInt16LEBytes,
    if_pos ⟨by exact_mod_cast hrange.1, by exact_mod_cast hrange.2⟩]
  simp only [jsTrunc_intCast, hmod]
  have he0 : (b0 + 256 * b1) % 256 = b0 := by omega
  have he1 : (b0 + 256 * b1) / 256 = b1 := by omega
  rw [he0, he1, set_get_self buf offset b0 hb0e, set_get_self buf (offset + 1) b1 hb1e]

/-- The inner channel loop is the identity when the gain curve is
constantly 1. -/
lemma channelLoop_id {fmt : Format} {levels : List Keyframe} (processed i : Nat)
    (hwf : WellFormed fmt) (hgain : ∀ t : ℚ, getVolume t levels = 1) :
    ∀ (rem channel : Nat) (buf : List Nat), channel + rem = fmt.channels →
      i + fmt.blockAlign ≤ buf.length → (∀ b ∈ buf, b < 256) →
      channelLoop fmt levels processed i rem channel buf = .ok buf := by
  intro rem
  induction rem with
  | zero =>
    intro channel buf _ _ _
    rfl
  | succ rem ih =>
    intro channel buf hch hle hb
    have hba : fmt.blockAlign = 2 * fmt.channels := hwf.2.2.2
    obtain ⟨v, hv⟩ := readInt16LE_isSome buf (i + 2 * channel) (by omega)
    obtain ⟨-, -, hw⟩ := read_write_id hb (i + 2 * channel) (by omega) hv
    have hval : (v : ℚ) * getVolume (((processed + i : Nat) : ℚ) / (fmt.byteRate : ℚ))
        levels = (v : ℚ) := by
      rw [hgain, mul_one]
    have hclip : clip ((v : ℚ)) (-32768) 32767 = (v : ℚ) :=
      clip_of_mem (read_write_id hb (i + 2 * channel) (by omega) hv).1
        (read_write_id hb (i + 2 * channel) (by omega) hv).2.1
    simp only [channelLoop, ratToOffset_wf hwf channel, readFormat, writeFormat,
      if_pos (show fmt.bitDepth = 16 ∧ fmt.endianness = Endianness.le from ⟨hwf.1, hwf.2.1⟩),
      hv, hval, hclip, hw]
    exact ih (channel + 1) buf (by omega) hle hb

/-- The outer frame loop is the identity when the gain curve is
constantly 1. -/
lemma transformGo_id {fmt : Format} {levels : List Keyframe} (processed : Nat)
    (hwf : WellFormed fmt) (hgain : ∀ t : ℚ, getVolume t levels = 1) :
    ∀ (fuel : Nat) (buf : List Nat) (i : Nat), buf.length - i < fuel →
      fmt.blockAlign ∣ (buf.length - i) → (∀ b ∈ buf, b < 256) →
      transformGo fmt levels processed fuel buf i = .ok buf := by
  intro fuel
  induction fuel with
  | zero =>
    intro buf i hlt _ _
    exact absurd hlt (by omega)
  | succ fuel ih =>
    intro buf i hlt hdvd hb
    by_cases hi : i < buf.length
    · have hch : 1 ≤ fmt.channels := hwf.2.2.1
      have hba : fmt.blockAlign = 2 * fmt.channels := hwf.2.2.2
      have hle : i + fmt.blockAlign ≤ buf.length := by
        rcases hdvd with ⟨k, hk⟩
        rcases Nat.eq_zero_or_pos k with hk0 | hk0
        · subst hk0
          simp at hk
          omega
        · have := Nat.mul_le_mul_left fmt.blockAlign hk0
          omega
      rw [transformGo, if_pos hi,
        channelLoop_id processed i hwf hgain fmt.channels 0 buf (by omega) hle hb]
      exact ih buf (i + fmt.blockAlign) (by omega)
        (by
          have h2 : buf.length - (i + fmt.blockAlign) = buf.length - i - fmt.blockAlign := by
            omega
          rw [h2]
          exact Nat.dvd_sub' hdvd dvd_rfl) hb
    · rw [transformGo, if_neg hi]

/-- Claim C6: with a keyframe sequence whose gain lookup is 1 at every
time (for example the empty sequence), the applicator reproduces its
input byte-for-byte: same format and the very same chunks. -/
theorem c6_identity (fmt : Format) (levels : List Keyframe) (chunks : List (List Nat))
    (hwf : WellFormed fmt) (hdvd : ∀ c ∈ chunks, fmt.blockAlign ∣ c.length)
    (hb : ∀ c ∈ chunks, ∀ b ∈ c, b < 256)
    (hgain : ∀ t : ℚ, getVolume t levels = 1) :
    applyGain fmt levels chunks = .ok (fmt, chunks) := by
  suffices h : ∀ (cs : List (List Nat)) (processed : Nat),
      (∀ c ∈ cs, fmt.blockAlign ∣ c.length) → (∀ c ∈ cs, ∀ b ∈ c, b < 256) →
      applyChunks fmt levels processed cs = .ok cs by
    rw [applyGain, h chunks 0 hdvd hb]
  intro cs
  induction cs with
  | nil =>
    intro processed _ _
    rfl
  | cons chunk rest ih =>
    intro processed hdvd2 hb2
    have hchunk : transformChunk fmt levels processed chunk = .ok chunk := by
      rw [transformChunk]
      exact transformGo_id processed hwf hgain (chunk.length + 1) chunk 0 (by omega)
        (by simpa using hdvd2 chunk (List.mem_cons_self _ _))
        (hb2 chunk (List.mem_cons_self _ _))
    simp only [applyChunks, hchunk,
      ih (processed + chunk.length) (fun c hc => hdvd2 c (List.mem_cons_of_mem _ hc))
        (fun c hc => hb2 c (List.mem_cons_of_mem _ hc))]

/-- Witness for C6: the empty keyframe sequence on a one-frame input. -/
theorem c6_witness :
    applyGain fmt16 [] [[100, 7]] = .ok (fmt16, [[100, 7]]) :=
  c6_identity fmt16 [] [[100, 7]] (by decide) (by decide) (by decide)
    (fun t => getVolume_nil t)

/-! ## Tempo/event resolver (`index.js`, both variants) -/

/-- A tempo map entry `{time, beat, tempo}`. -/
structure TempoEntry where
  time : ℚ
  beat : ℚ
  tempo : ℚ
deriving DecidableEq, Repr

/-- A parsed event-log line: `[time, "tick"]`,
`[time, "channel_volume", trackIndex, value]` or
`[time, "tempo", bpm]` (unparsable lines are skipped before this
point). -/
inductive Event where
  | tick (time : ℚ)
  | channelVolume (time : ℚ) (idx : Nat) (value : ℚ)
  | tempoChange (time : ℚ) (bpm : ℚ)
deriving DecidableEq, Repr

/-- `event[0]`, the raw wall-clock timestamp of a log line. -/
def Event.rawTime : Event → ℚ
  | .tick t => t
  | .channelVolume t _ _ => t
  | .tempoChange t _ => t

/-- The mutable top-level state of the resolver script. -/
structure RState where
  tempo : Option ℚ
  duration : ℚ
  length : ℚ
  timeAtLastTempoChange : ℚ
  beatAtLastTempoChange : ℚ
  tempoEvents : List TempoEntry
  tracks : List (List Keyframe)
  ticks : List ℚ
  tickDurations : List ℚ
deriving DecidableEq, Repr

/-- `lastTempoEvent ? lastTempoEvent.tempo : 120`. -/
def lastTempoOf (s : RState) : ℚ :=
  match s.tempoEvents.getLast? with
  | some te => te.tempo
  | none => 120

/-- `beatDuration = 60 / lastTempo`. -/
def beatDurationOf (s : RState) : ℚ := 60 / lastTempoOf s

/-- `beat = beatAtLastTempoChange + timeSinceTempoChange / beatDuration`. -/
def beatOf (s : RState) (time : ℚ) : ℚ :=
  s.beatAtLastTempoChange + (time - s.timeAtLastTempoChange) / beatDurationOf s

/-- The keyframe `{time, beat, value: value * value * 1.618}` pushed for
a channel_volume event (`value = event[3] / 127`). -/
def newKF (s : RState) (time : ℚ) (raw : ℚ) : Keyframe :=
  { time, beat := beatOf s time, value := (raw / 127) * (raw / 127) * 1.618 }

/-- The synthetic step-hold keyframe
`{time: time - 0.05, beat: beat - 0.05 / beatDuration, value: lastEvent.value}`. -/
def synKF (s : RState) (time : ℚ) (lastEvent : Keyframe) : Keyframe :=
  { time := time - 0.05, beat := beatOf s time - 0.05 / beatDurationOf s,
    value := lastEvent.value }

/-- The body of the per-line `forEach` of `index.js`, parameterised over
the two constants in which the packaged variants differ:
`rtm` (`recordingTimeMultiplier`; absent, i.e. 1, in the variant without
drift correction) and `tm` (`tempoMultiplier`). -/
def step (rtm tm : ℚ) (s : RState) (e : Event) : RState :=
  let time := e.rawTime * rtm
  let beat := beatOf s time
  match e with
  | .tick _ =>
    { s with
      duration := time
      length := beat
      tickDurations :=
        match s.ticks.getLast? with
        | some lastTick => s.tickDurations ++ [time - lastTick]
        | none => s.tickDurations
      ticks := s.ticks ++ [time] }
  | .channelVolume _ idx raw =>
    match s.tracks.get? idx with
    | none => s
    | some evs =>
      let evs1 :=
        match evs.getLast? with
        | some lastEvent =>
          if time - lastEvent.time > 0.1 then evs ++ [synKF s time lastEvent]
          else evs
        | none => evs
      { s with tracks := s.tracks.set idx (evs1 ++ [newKF s time raw]) }
  | .tempoChange _ bpm =>
    { s with
      tempo :=
        match s.tempo with
        | none => some bpm
        | some t0 => if t0 = 0 then some bpm else s.tempo
      timeAtLastTempoChange := time
      beatAtLastTempoChange := beat
      tempoEvents := s.tempoEvents ++ [{ time, beat, tempo := bpm * tm }] }

/-- The state before any line is processed (`tracks` holds the
configured track array, each with an empty `volumeEvents`). -/
def initState (trackCount : Nat) : RState :=
  { tempo := none, duration := 0, length := 0, timeAtLastTempoChange := 0,
    beatAtLastTempoChange := 0, tempoEvents := [], tracks := List.replicate trackCount [],
    ticks := [], tickDurations := [] }

/-- Processing the whole log in order. -/
def resolveEvents (rtm tm : ℚ) (trackCount : Nat) (log : List Event) : RState :=
  log.foldl (step rtm tm) (initState trackCount)

/-- `recordingTimeMultiplier` of the drift-corrected variant. -/
def recordingTimeMultiplier : ℚ := 0.9999541021

/-- `tempoMultiplier = 1 / recordingTimeMultiplier` of the
drift-corrected variant. -/
def tempoMultiplierV1 : ℚ := 1 / recordingTimeMultiplier

/-- The drift-corrected variant of the resolver. -/
def resolveV1 (trackCount : Nat) (log : List Event) : RState :=
  resolveEvents recordingTimeMultiplier tempoMultiplierV1 trackCount log

/-- The variant without drift correction (`tempoMultiplier = 1`, raw
times). -/
def resolveV2 (trackCount : Nat) (log : List Event) : RState :=
  resolveEvents 1 1 trackCount log

/-- `var lastTempo = tempoEvents[…] ? tempoEvents[…].tempo : tempo`
after the log is exhausted (`tempo` is still `null` when no tempo event
was seen). -/
def lastTempoFinal (s : RState) : Option ℚ :=
  match s.tempoEvents.getLast? with
  | some te => some te.tempo
  | none => s.tempo

/-- The final entry pushed onto `tempoEvents` by the drift-corrected
variant: `{time: duration, beat: length, tempo: lastTempo * tempoMultiplier}`.
When no tempo event was ever seen `lastTempo` is `null`, which JS
coerces to the number 0 in the multiplication, so the pushed tempo is 0
(`getD 0` models that coercion). -/
def finalTempoEventV1 (s : RState) : ℚ × ℚ × ℚ :=
  (s.duration, s.length, ((lastTempoFinal s).getD 0) * tempoMultiplierV1)

/-- The final entry pushed onto `tempoEvents` by the variant without
drift correction: `{time: duration, beat: length, tempo: lastTempo}`. -/
def finalTempoEventV2 (s : RState) : ℚ × ℚ × Option ℚ :=
  (s.duration, s.length, lastTempoFinal s)

/-- The raw timestamp of a tick event, `none` for the other kinds. -/
def tickOf : Event → Option ℚ
  | .tick t => some t
  | _ => none

/-- The raw bpm of a tempo-change event, `none` for the other kinds. -/
def bpmOf : Event → Option ℚ
  | .tempoChange _ b => some b
  | _ => none

/-- The raw timestamps of the tick events of a log. -/
def tickTimes (log : List Event) : List ℚ :=
  log.filterMap tickOf

/-- The raw bpm values of the tempo-change events of a log. -/
def tempoBpms (log : List Event) : List ℚ :=
  log.filterMap bpmOf

/-- The last extracted value of a log grows from the right. -/
lemma getLast?_filterMap_cons (f : Event → Option ℚ) (e : Event) (l : List Event) :
    (List.filterMap f (e :: l)).getLast? = ((List.filterMap f l).getLast?).or (f e) := by
  rw [List.filterMap_cons]
  cases hfe : f e with
  | none =>
    rw [Option.or_none]
  | some b =>
    cases hfl : List.filterMap f l with
    | nil => rfl
    | cons c cs =>
      show (b :: c :: cs).getLast? = ((c :: cs).getLast?).or (some b)
      rw [List.getLast?_cons_cons]
      have hs : (c :: cs).getLast?.isSome := by
        rw [List.getLast?_isSome]
        exact List.cons_ne_nil c cs
      obtain ⟨x, hx⟩ := Option.isSome_iff_exists.mp hs
      rw [hx]
      rfl

lemma tickTimes_cons (e : Event) (l : List Event) :
    (tickTimes (e :: l)).getLast? = ((tickTimes l).getLast?).or (tickOf e) :=
  getLast?_filterMap_cons tickOf e l

lemma tempoBpms_cons (e : Event) (l : List Event) :
    (tempoBpms (e :: l)).getLast? = ((tempoBpms l).getLast?).or (bpmOf e) :=
  getLast?_filterMap_cons bpmOf e l

/-- What one step does to `duration`. -/
lemma step_duration_eq (rtm tm : ℚ) (s : RState) (e : Event) :
    (step rtm tm s e).duration =
      match e with
      | .tick t => t * rtm
      | _ => s.duration := by
  cases e with
  | tick t => rfl
  | tempoChange t b => rfl
  | channelVolume t idx raw =>
    show (match s.tracks.get? idx with
      | none => s
      | some evs => _).duration = s.duration
    cases hg : s.tracks.get? idx with
    | none => rfl
    | some evs => rfl

/-- `duration` after the whole log is the processed time of the last
tick. -/
lemma resolve_duration (rtm tm : ℚ) :
    ∀ (log : List Event) (s : RState),
      (log.foldl (step rtm tm) s).duration =
        (((tickTimes log).getLast?).map (fun t => t * rtm)).getD s.duration := by
  intro log
  induction log with
  | nil =>
    intro s
    rfl
  | cons e rest ih =>
    intro s
    rw [List.foldl_cons, ih, tickTimes_cons]
    cases hfl : (tickTimes rest).getLast? with
    | some t' => rfl
    | none =>
      rw [Option.map_none', Option.getD_none, step_duration_eq]
      cases e with
      | tick t => rfl
      | channelVolume t idx raw => rfl
      | tempoChange t b => rfl

/-- What one step does to the would-be `lastTempo` of the finalisation. -/
lemma step_lastTempoFinal (rtm tm : ℚ) (s : RState) (e : Event) :
    lastTempoFinal (step rtm tm s e) =
      match e with
      | .tempoChange _ b => some (b * tm)
      | _ => lastTempoFinal s := by
  cases e with
  | tick t => rfl
  | tempoChange t b =>
    show lastTempoFinal { s with
      tempo := _, timeAtLastTempoChange := _, beatAtLastTempoChange := _,
      tempoEvents := s.tempoEvents ++ [_] } = _
    rw [lastTempoFinal]
    simp only [List.getLast?_concat]
  | channelVolume t idx raw =>
    show lastTempoFinal (match s.tracks.get? idx with
      | none => s
      | some evs => _) = lastTempoFinal s
    cases hg : s.tracks.get? idx with
    | none => rfl
    | some evs => rfl

/-- The `lastTempo` used by the final push is the last stored tempo
(`raw bpm × tempoMultiplier`), or the nominal `tempo` variable when no
tempo event was stored. -/
lemma resolve_lastTempoFinal (rtm tm : ℚ) :
    ∀ (log : List Event) (s : RState),
      lastTempoFinal (log.foldl (step rtm tm) s) =
        (((tempoBpms log).getLast?).map (fun b => b * tm)).or (lastTempoFinal s) := by
  intro log
  induction log with
  | nil =>
    intro s
    rfl
  | cons e rest ih =>
    intro s
    rw [List.foldl_cons, ih, tempoBpms_cons]
    cases hfl : (tempoBpms rest).getLast? with
    | some b' => rfl
    | none =>
      rw [step_lastTempoFinal]
      cases e with
      | tick t => rfl
      | channelVolume t idx raw => rfl
      | tempoChange t b => rfl

/-- With no tempo event, one step keeps the default anchors and the
120 BPM relation `beats = 2 × seconds`. -/
lemma step_noTempo (rtm tm : ℚ) (s : RState) (e : Event) (he : bpmOf e = none)
    (h1 : s.tempo = none) (h2 : s.tempoEvents = []) (h3 : s.timeAtLastTempoChange = 0)
    (h4 : s.beatAtLastTempoChange = 0) (h5 : s.length = 2 * s.duration) :
    (step rtm tm s e).tempo = none ∧ (step rtm tm s e).tempoEvents = [] ∧
    (step rtm tm s e).timeAtLastTempoChange = 0 ∧
    (step rtm tm s e).beatAtLastTempoChange = 0 ∧
    (step rtm tm s e).length = 2 * (step rtm tm s e).duration := by
  cases e with
  | tempoChange t b =>
    simp [bpmOf] at he
  | channelVolume t idx raw =>
    simp only [step]
    cases hg : s.tracks.get? idx with
    | none => exact ⟨h1, h2, h3, h4, h5⟩
    | some evs => exact ⟨h1, h2, h3, h4, h5⟩
  | tick t =>
    refine ⟨h1, h2, h3, h4, ?_⟩
    show beatOf s (t * rtm) = 2 * (t * rtm)
    simp only [beatOf, beatDurationOf, lastTempoOf, h2, h3, h4]
    norm_num
    ring

/-- With no tempo event in the log, the defaults survive the whole fold:
nominal tempo stays null, the tempo map stays empty, and every tick's
beat was computed at 120 BPM (`beats = 2 × seconds`). -/
lemma resolve_noTempo (rtm tm : ℚ) :
    ∀ (log : List Event) (s : RState), (∀ e ∈ log, bpmOf e = none) →
      s.tempo = none → s.tempoEvents = [] → s.timeAtLastTempoChange = 0 →
      s.beatAtLastTempoChange = 0 → s.length = 2 * s.duration →
      (log.foldl (step rtm tm) s).tempo = none ∧
      (log.foldl (step rtm tm) s).tempoEvents = [] ∧
      (log.foldl (step rtm tm) s).length = 2 * (log.foldl (step rtm tm) s).duration := by
  intro log
  induction log with
  | nil =>
    intro s _ h1 h2 _ _ h5
    exact ⟨h1, h2, h5⟩
  | cons e rest ih =>
    intro s hall h1 h2 h3 h4 h5
    obtain ⟨g1, g2, g3, g4, g5⟩ :=
      step_noTempo rtm tm s e (hall e (List.mem_cons_self _ _)) h1 h2 h3 h4 h5
    rw [List.foldl_cons]
    exact ih (step rtm tm s e) (fun e2 he2 => hall e2 (List.mem_cons_of_mem _ he2))
      g1 g2 g3 g4 g5

/-- Claim C4 (amended): after the log, exactly one final entry is pushed
at `(duration, length, lastTempo)`; `duration` is the processed time of
the last tick.  In the variant without drift correction the final
entry's tempo is the last tempo value seen; in the drift-corrected
variant the tempo multiplier is applied a second time to the stored
tempo.  With no TempoChange in the log, 120 BPM is used throughout
(`beats = 2 × seconds`), the nominal project tempo stays null, the
entries accumulated during processing are empty, and the closing entry
is still pushed — with tempo null in the no-drift variant and tempo 0
(null coerced by the multiplication) in the drift-corrected variant. -/
theorem c4_final_tempo_entry (n : Nat) (log : List Event) :
    (finalTempoEventV2 (resolveV2 n log) =
      ((resolveV2 n log).duration, (resolveV2 n log).length, (tempoBpms log).getLast?) ∧
      (resolveV2 n log).duration = ((tickTimes log).getLast?).getD 0) ∧
    ((finalTempoEventV1 (resolveV1 n log)).2.2 =
      (((tempoBpms log).getLast?).map
        (fun b => b * tempoMultiplierV1 * tempoMultiplierV1)).getD 0) ∧
    (tempoBpms log = [] →
      (resolveV2 n log).tempo = none ∧ (resolveV1 n log).tempo = none ∧
      lastTempoFinal (resolveV2 n log) = none ∧
      (finalTempoEventV1 (resolveV1 n log)).2.2 = 0 ∧
      (resolveV2 n log).tempoEvents = [] ∧
      (resolveV2 n log).length = 2 * (resolveV2 n log).duration ∧
      (resolveV1 n log).length = 2 * (resolveV1 n log).duration) := by
  have hA : lastTempoFinal (resolveV2 n log) = (tempoBpms log).getLast? := by
    rw [resolveV2, resolveEvents, resolve_lastTempoFinal]
    cases hfl : (tempoBpms log).getLast? with
    | none => rfl
    | some b =>
      show (some (b * 1)).or _ = some b
      rw [mul_one]
      rfl
  refine ⟨⟨?_, ?_⟩, ?_, ?_⟩
  · show ((resolveV2 n log).duration, (resolveV2 n log).length,
      lastTempoFinal (resolveV2 n log)) = _
    rw [hA]
  · rw [resolveV2, resolveEvents, resolve_duration]
    cases hfl : (tickTimes log).getLast? with
    | none => rfl
    | some t =>
      show t * 1 = t
      rw [mul_one]
  · show ((lastTempoFinal (resolveV1 n log)).getD 0) * tempoMultiplierV1 = _
    rw [resolveV1, resolveEvents, resolve_lastTempoFinal]
    cases hfl : (tempoBpms log).getLast? with
    | none =>
      show (0 : ℚ) * tempoMultiplierV1 = 0
      rw [zero_mul]
    | some b => rfl
  · intro hnil
    have hall : ∀ e ∈ log, bpmOf e = none := by
      intro e he
      have := List.filterMap_eq_nil_iff.mp hnil
      exact this e he
    have hV1none : lastTempoFinal (resolveV1 n log) = none := by
      rw [resolveV1, resolveEvents, resolve_lastTempoFinal, hnil]
      rfl
    have hV1zero : (finalTempoEventV1 (resolveV1 n log)).2.2 = 0 := by
      show ((lastTempoFinal (resolveV1 n log)).getD 0) * tempoMultiplierV1 = 0
      rw [hV1none]
      exact zero_mul _
    obtain ⟨g1, g2, g3⟩ := resolve_noTempo 1 1 log (initState n) hall rfl rfl rfl rfl
      (by norm_num [initState])
    obtain ⟨f1, _, f3⟩ := resolve_noTempo recordingTimeMultiplier tempoMultiplierV1 log
      (initState n) hall rfl rfl rfl rfl (by norm_num [initState])
    exact ⟨g1, f1, by rw [hA, hnil]; rfl, hV1zero, g2, g3, f3⟩

/-- Counterexample to C4 as stated: in the drift-corrected variant the
final entry's tempo (last stored tempo × multiplier, i.e. raw bpm ×
multiplier²) differs both from the last raw tempo seen (120) and from
the last stored tempo (120 × multiplier). -/
theorem c4_counterexample :
    (tempoBpms [Event.tempoChange 1 120, Event.tick 2]).getLast? = some 120 ∧
    lastTempoFinal (resolveV1 5 [Event.tempoChange 1 120, Event.tick 2]) =
      some (120 * tempoMultiplierV1) ∧
    (finalTempoEventV1 (resolveV1 5 [Event.tempoChange 1 120, Event.tick 2])).2.2 ≠
      120 ∧
    (finalTempoEventV1 (resolveV1 5 [Event.tempoChange 1 120, Event.tick 2])).2.2 ≠
      120 * tempoMultiplierV1 := by
  refine ⟨rfl, ?_, ?_, ?_⟩ <;>
  norm_num [resolveV1, resolveEvents, initState, step, lastTempoFinal, finalTempoEventV1,
    tempoMultiplierV1, recordingTimeMultiplier, Event.rawTime, List.replicate, beatOf,
    beatDurationOf, lastTempoOf]

/-- The keyframe sequence of track `i` ( `[]` for an unknown index). -/
def trackKF (s : RState) (i : Nat) : List Keyframe :=
  s.tracks.getD i []

/-- One step only ever appends to a track's keyframe sequence. -/
lemma step_trackKF_append (rtm tm : ℚ) (s : RState) (e : Event) (i : Nat) :
    ∃ suf, trackKF (step rtm tm s e) i = trackKF s i ++ suf := by
  cases e with
  | tick t =>
    exact ⟨[], by rw [List.append_nil]; rfl⟩
  | tempoChange t b =>
    exact ⟨[], by rw [List.append_nil]; rfl⟩
  | channelVolume t idx raw =>
    show ∃ suf, trackKF (match s.tracks.get? idx with
      | none => s
      | some evs => _) i = trackKF s i ++ suf
    cases hg : s.tracks.get? idx with
    | none =>
      exact ⟨[], by rw [List.append_nil]⟩
    | some evs =>
      have hidx : idx < s.tracks.length := by
        by_contra hge
        rw [List.get?_eq_getElem?, List.getElem?_eq_none (by omega)] at hg
        cases hg
      rw [List.get?_eq_getElem?] at hg
      by_cases hii : i = idx
      · subst hii
        have hkf : trackKF s i = evs := by
          simp only [trackKF, List.getD, List.get?_eq_getElem?, hg, Option.getD_some]
        refine ⟨(match evs.getLast? with
          | some lastEvent =>
            if (Event.channelVolume t i raw).rawTime * rtm - lastEvent.time > 0.1 then
              [synKF s ((Event.channelVolume t i raw).rawTime * rtm) lastEvent]
            else []
          | none => []) ++
            [newKF s ((Event.channelVolume t i raw).rawTime * rtm) raw], ?_⟩
        show trackKF { s with tracks := s.tracks.set i _ } i = trackKF s i ++ _
        simp only [trackKF, List.getD, List.get?_eq_getElem?,
          List.getElem?_set_eq_of_lt _ hidx, hg, Option.getD_some]
        cases evs.getLast? with
        | none => rfl
        | some lastEvent =>
          by_cases hc : (Event.channelVolume t i raw).rawTime * rtm - lastEvent.time > 0.1
          · simp only [if_pos hc, List.append_assoc]
          · simp only [if_neg hc]
            rfl
      · refine ⟨[], ?_⟩
        rw [List.append_nil]
        show trackKF { s with tracks := s.tracks.set idx _ } i = trackKF s i
        simp only [trackKF, List.getD, List.get?_eq_getElem?,
          List.getElem?_set_ne (fun h => hii h.symm)]

/-- A fold of steps only ever appends to a track's keyframe sequence. -/
lemma foldl_trackKF_append (rtm tm : ℚ) :
    ∀ (log : List Event) (s : RState) (i : Nat),
      ∃ suf, trackKF (log.foldl (step rtm tm) s) i = trackKF s i ++ suf := by
  intro log
  induction log with
  | nil =>
    intro s i
    exact ⟨[], by rw [List.append_nil]; rfl⟩
  | cons e rest ih =>
    intro s i
    obtain ⟨s1, hs1⟩ := step_trackKF_append rtm tm s e i
    obtain ⟨s2, hs2⟩ := ih (step rtm tm s e) i
    exact ⟨s1 ++ s2, by rw [List.foldl_cons, hs2, hs1, List.append_assoc]⟩

/-- What one channel_volume event for a known track does to that track's
keyframe list. -/
lemma step_cv_track {rtm tm : ℚ} {s : RState} {traw : ℚ} {idx : Nat} {raw : ℚ}
    {evs : List Keyframe} (h : s.tracks.get? idx = some evs) :
    (step rtm tm s (.channelVolume traw idx raw)).tracks.get? idx =
      some ((match evs.getLast? with
        | some lastEvent =>
          if traw * rtm - lastEvent.time > 0.1 then evs ++ [synKF s (traw * rtm) lastEvent]
          else evs
        | none => evs) ++ [newKF s (traw * rtm) raw]) := by
  have hidx : idx < s.tracks.length := by
    by_contra hge
    have h2 := h
    rw [List.get?_eq_getElem?, List.getElem?_eq_none (by omega)] at h2
    cases h2
  show (match s.tracks.get? idx with
    | none => s
    | some evs => _).tracks.get? idx = _
  simp only [h, List.get?_eq_getElem?, List.getElem?_set_eq_of_lt _ hidx, Event.rawTime]

/-- Claim C2: processing a ControlChange for a known track appends, when
the track already has keyframes and the gap from the previous keyframe
exceeds 0.1 s, a synthetic keyframe at time `newTime - 0.05` holding the
previous keyframe's gain immediately before the new keyframe; with a gap
of at most 0.1 s, or an empty sequence, only the new keyframe is
appended.  Concretely (no-drift variant): events at t=0 (value 127) and
t=0.3 for track 0 yield an extra keyframe at t=0.25 with the t=0 gain;
events at t=0 and t=0.05 yield no synthetic keyframe. -/
theorem c2_step_hold_synthesis (rtm tm : ℚ) (s : RState) (traw : ℚ) (idx : Nat) (raw : ℚ)
    (evs : List Keyframe) (h : s.tracks.get? idx = some evs) :
    (∀ lastE, evs.getLast? = some lastE → traw * rtm - lastE.time > 0.1 →
      (step rtm tm s (.channelVolume traw idx raw)).tracks.get? idx =
        some (evs ++ [synKF s (traw * rtm) lastE, newKF s (traw * rtm) raw]) ∧
      (synKF s (traw * rtm) lastE).time = traw * rtm - 0.05 ∧
      (synKF s (traw * rtm) lastE).value = lastE.value) ∧
    (∀ lastE, evs.getLast? = some lastE → ¬(traw * rtm - lastE.time > 0.1) →
      (step rtm tm s (.channelVolume traw idx raw)).tracks.get? idx =
        some (evs ++ [newKF s (traw * rtm) raw])) ∧
    (evs = [] →
      (step rtm tm s (.channelVolume traw idx raw)).tracks.get? idx =
        some [newKF s (traw * rtm) raw]) ∧
    ((resolveV2 6 [.channelVolume 0 0 127, .channelVolume 0.3 0 0]).tracks.get? 0 =
      some [⟨0, 0, 1.618⟩, ⟨0.25, 0.5, 1.618⟩, ⟨0.3, 0.6, 0⟩]) ∧
    ((resolveV2 6 [.channelVolume 0 0 127, .channelVolume 0.05 0 0]).tracks.get? 0 =
      some [⟨0, 0, 1.618⟩, ⟨0.05, 0.1, 0⟩]) := by
  refine ⟨?_, ?_, ?_, ?_, ?_⟩
  · intro lastE hlast hgap
    refine ⟨?_, rfl, rfl⟩
    rw [step_cv_track h, hlast]
    simp only [if_pos hgap, List.append_assoc]
    rfl
  · intro lastE hlast hgap
    rw [step_cv_track h, hlast]
    simp only [if_neg hgap]
  · intro hnil
    subst hnil
    rw [step_cv_track h]
    rfl
  · norm_num [resolveV2, resolveEvents, initState, step, beatOf, beatDurationOf,
      lastTempoOf, List.replicate, Event.rawTime, newKF, synKF]
  · norm_num [resolveV2, resolveEvents, initState, step, beatOf, beatDurationOf,
      lastTempoOf, List.replicate, Event.rawTime, newKF, synKF]

/-- A one-track state holding a single keyframe, used by witnesses. -/
def s0 : RState :=
  { tempo := none, duration := 0, length := 0, timeAtLastTempoChange := 0,
    beatAtLastTempoChange := 0, tempoEvents := [], tracks := [[⟨0, 0, 1⟩]],
    ticks := [], tickDurations := [] }

/-- Witness for C2: a 0.3 s gap triggers the synthetic keyframe. -/
theorem c2_witness :
    (step 1 1 s0 (.channelVolume (3/10) 0 0)).tracks.get? 0 =
      some ([⟨0, 0, 1⟩] ++ [synKF s0 (3/10 * 1) ⟨0, 0, 1⟩, newKF s0 (3/10 * 1) 0]) ∧
    (synKF s0 (3/10 * 1) ⟨0, 0, 1⟩).time = 3/10 * 1 - 0.05 :=
  ⟨((c2_step_hold_synthesis 1 1 s0 (3/10) 0 0 [⟨0, 0, 1⟩] rfl).1 ⟨0, 0, 1⟩ rfl
      (by norm_num)).1,
   ((c2_step_hold_synthesis 1 1 s0 (3/10) 0 0 [⟨0, 0, 1⟩] rfl).1 ⟨0, 0, 1⟩ rfl
      (by norm_num)).2.1⟩

/-- Counterexample to C5 as stated: two channel_volume events for the
same track carrying the same timestamp leave TWO keyframes at that
timestamp — duplicates are pushed, not coalesced. -/
theorem c5_counterexample :
    (resolveV2 6 [.channelVolume 1 0 10, .channelVolume 1 0 20]).tracks.get? 0 =
      some [⟨1, 2, 809/80645⟩, ⟨1, 2, 3236/80645⟩] ∧
    2 ≤ ([⟨1, 2, 809/80645⟩, ⟨1, 2, 3236/80645⟩] : List Keyframe).length ∧
    ∀ k ∈ ([⟨1, 2, 809/80645⟩, ⟨1, 2, 3236/80645⟩] : List Keyframe), k.time = 1 := by
  refine ⟨?_, by norm_num, by intro k hk; fin_cases hk <;> rfl⟩
  norm_num [resolveV2, resolveEvents, initState, step, beatOf, beatDurationOf,
    lastTempoOf, List.replicate, Event.rawTime, newKF, synKF]

/-- One resolver step keeps every track's keyframe list ordered
non-decreasing in time and bounded by the processed event time. -/
lemma step_sorted_inv (rtm tm : ℚ) (hrtm : 0 < rtm) (s : RState) (e : Event) (b : ℚ)
    (hband : b ≤ e.rawTime)
    (hsorted : ∀ l ∈ s.tracks, l.Chain' (fun p q => p.time ≤ q.time))
    (hbound : ∀ l ∈ s.tracks, ∀ k, l.getLast? = some k → k.time ≤ b * rtm) :
    (∀ l ∈ (step rtm tm s e).tracks, l.Chain' (fun p q => p.time ≤ q.time)) ∧
    (∀ l ∈ (step rtm tm s e).tracks, ∀ k, l.getLast? = some k →
      k.time ≤ e.rawTime * rtm) := by
  have hmul : b * rtm ≤ e.rawTime * rtm := mul_le_mul_of_nonneg_right hband hrtm.le
  cases e with
  | tick t =>
    exact ⟨hsorted, fun l hl k hk => le_trans (hbound l hl k hk) hmul⟩
  | tempoChange t bpm =>
    exact ⟨hsorted, fun l hl k hk => le_trans (hbound l hl k hk) hmul⟩
  | channelVolume traw idx raw =>
    cases hg : s.tracks.get? idx with
    | none =>
      have : step rtm tm s (.channelVolume traw idx raw) =
          { s with tracks := s.tracks } := by
        show (match s.tracks.get? idx with
          | none => s
          | some evs => _) = _
        rw [hg]
      rw [this]
      exact ⟨hsorted, fun l hl k hk => le_trans (hbound l hl k hk) hmul⟩
    | some evs =>
      have hmem : evs ∈ s.tracks := List.get?_mem hg
      have hevs : evs.Chain' (fun p q => p.time ≤ q.time) := hsorted evs hmem
      have htr : (step rtm tm s (.channelVolume traw idx raw)).tracks =
          s.tracks.set idx ((match evs.getLast? with
            | some lastEvent =>
              if traw * rtm - lastEvent.time > 0.1 then
                evs ++ [synKF s (traw * rtm) lastEvent]
              else evs
            | none => evs) ++ [newKF s (traw * rtm) raw]) := by
        show (match s.tracks.get? idx with
          | none => s
          | some evs => _).tracks = _
        simp only [hg, Event.rawTime]
      set t := traw * rtm with ht
      have hnewt : (newKF s t raw).time = t := rfl
      have hv : ((match evs.getLast? with
          | some lastEvent =>
            if t - lastEvent.time > 0.1 then evs ++ [synKF s t lastEvent]
            else evs
          | none => evs) ++ [newKF s t raw]).Chain' (fun p q => p.time ≤ q.time) ∧
          ((match evs.getLast? with
          | some lastEvent =>
            if t - lastEvent.time > 0.1 then evs ++ [synKF s t lastEvent]
            else evs
          | none => evs) ++ [newKF s t raw]).getLast? = some (newKF s t raw) := by
        cases hlast : evs.getLast? with
        | none =>
          have : evs = [] := List.getLast?_eq_none_iff.mp hlast
          subst this
          exact ⟨List.chain'_singleton _, rfl⟩
        | some lastE =>
          have hlb : lastE.time ≤ t := le_trans (hbound evs hmem lastE hlast) hmul
          by_cases hgap : t - lastE.time > 0.1
          · simp only [if_pos hgap]
            refine ⟨?_, ?_⟩
            · rw [List.append_assoc, List.singleton_append]
              refine List.chain'_append.mpr ⟨hevs, ?_, ?_⟩
              · refine List.chain'_pair.mpr ?_
                show t - 0.05 ≤ t
                linarith
              · intro x hx y hy
                rw [hlast, Option.mem_def, Option.some_inj] at hx
                rw [List.head?_cons, Option.mem_def, Option.some_inj] at hy
                subst hx
                subst hy
                show lastE.time ≤ t - 0.05
                linarith
            · rw [List.getLast?_concat]
          · simp only [if_neg hgap]
            refine ⟨List.chain'_append.mpr ⟨hevs, List.chain'_singleton _, ?_⟩,
              List.getLast?_concat _⟩
            intro x hx y hy
            rw [hlast, Option.mem_def, Option.some_inj] at hx
            simp only [List.head?_cons, Option.mem_def, Option.some_inj] at hy
            subst hx
            subst hy
            exact hlb
      constructor
      · intro l hl
        rw [htr] at hl
        rcases List.mem_or_eq_of_mem_set hl with hmem2 | hveq
        · exact hsorted l hmem2
        · rw [hveq]
          exact hv.1
      · intro l hl k hk
        rw [htr] at hl
        rcases List.mem_or_eq_of_mem_set hl with hmem2 | hveq
        · exact le_trans (hbound l hmem2 k hk) hmul
        · rw [hveq, hv.2, Option.some_inj] at hk
          rw [← hk, hnewt]
          exact le_refl t

/-- Folding the resolver over a chronologically ordered log keeps every
track's keyframe list ordered non-decreasing in time. -/
lemma resolve_sorted_aux (rtm tm : ℚ) (hrtm : 0 < rtm) :
    ∀ (log : List Event) (s : RState) (b : ℚ),
      log.Chain' (fun p q => p.rawTime ≤ q.rawTime) →
      (∀ e, log.head? = some e → b ≤ e.rawTime) →
      (∀ l ∈ s.tracks, l.Chain' (fun p q => p.time ≤ q.time)) →
      (∀ l ∈ s.tracks, ∀ k, l.getLast? = some k → k.time ≤ b * rtm) →
      ∀ l ∈ (log.foldl (step rtm tm) s).tracks, l.Chain' (fun p q => p.time ≤ q.time) := by
  intro log
  induction log with
  | nil =>
    intro s b _ _ hsorted _ l hl
    exact hsorted l hl
  | cons e rest ih =>
    intro s b hchain hhead hsorted hbound
    have hband : b ≤ e.rawTime := hhead e rfl
    obtain ⟨hs', hb'⟩ := step_sorted_inv rtm tm hrtm s e b hband hsorted hbound
    rw [List.foldl_cons]
    refine ih (step rtm tm s e) e.rawTime (List.Chain'.tail hchain) ?_ hs' hb'
    intro e2 he2
    rcases rest with _ | ⟨e3, rest'⟩
    · cases he2
    · rw [List.head?_cons, Option.some_inj] at he2
      subst he2
      exact (List.chain'_cons.mp hchain).1

/-- Claim C5 (amended): with a chronologically non-decreasing log (and a
positive time multiplier), every track's keyframe sequence is ordered
non-decreasing by time; equal-timestamp control events each keep their
own keyframe (see the counterexample: they are NOT coalesced), and every
synthetic step-hold keyframe lies strictly after its predecessor and
strictly before the new keyframe. -/
theorem c5_amended_ordering (rtm tm : ℚ) (hrtm : 0 < rtm) (n : Nat) (log : List Event)
    (hmono : log.Chain' (fun p q => p.rawTime ≤ q.rawTime))
    (hfirst : ∀ e, log.head? = some e → 0 ≤ e.rawTime) :
    (∀ l ∈ (resolveEvents rtm tm n log).tracks,
      l.Chain' (fun p q => p.time ≤ q.time)) ∧
    (∀ (s' : RState) (t : ℚ) (lastE : Keyframe) (raw : ℚ), t - lastE.time > 0.1 →
      lastE.time < (synKF s' t lastE).time ∧
      (synKF s' t lastE).time < (newKF s' t raw).time) := by
  constructor
  · refine resolve_sorted_aux rtm tm hrtm log (initState n) 0 hmono hfirst ?_ ?_
    · intro l hl
      rw [initState] at hl
      simp only [List.eq_of_mem_replicate hl]
      exact List.chain'_nil
    · intro l hl k hk
      rw [initState] at hl
      simp only [List.eq_of_mem_replicate hl] at hk
      cases hk
  · intro s' t lastE raw hgap
    constructor
    · show lastE.time < t - 0.05
      linarith
    · show t - 0.05 < t
      linarith

/-- Witness for C5 (amended) on a concrete ordered two-event log. -/
theorem c5_witness :
    List.Chain' (fun p q => p.time ≤ q.time)
      ((resolveEvents 1 1 1
        [.channelVolume 0 0 127, .channelVolume 1 0 0]).tracks.getD 0 []) := by
  have h := (c5_amended_ordering 1 1 (by norm_num) 1
    [.channelVolume 0 0 127, .channelVolume 1 0 0]
    (by simp [Event.rawTime])
    (by
      intro e he
      rw [List.head?_cons, Option.some_inj] at he
      subst he
      norm_num [Event.rawTime])).1
  have hm : (resolveEvents 1 1 1
      [.channelVolume 0 0 127, .channelVolume 1 0 0]).tracks.getD 0 [] ∈
      (resolveEvents 1 1 1 [.channelVolume 0 0 127, .channelVolume 1 0 0]).tracks := by
    norm_num [resolveEvents, initState, step, beatOf, beatDurationOf, lastTempoOf,
      List.replicate, Event.rawTime, newKF, synKF]
  exact h _ hm

/-- Claim C7: the keyframes a track has accumulated after processing a
log prefix are exactly preserved — byte for byte, including the beat
computed from only previously seen tempo state — when the log is
extended by arbitrary further events: resolving `L1 ++ L2` leaves every
keyframe produced during `L1` (in particular the `(time, beat, gain)`
keyframe of any ControlChange in `L1`) identical, only appending new
ones. -/
theorem c7_causal_resolution (rtm tm : ℚ) (n : Nat) (L1 L2 : List Event) (i : Nat) :
    ∃ suf, trackKF (resolveEvents rtm tm n (L1 ++ L2)) i =
      trackKF (resolveEvents rtm tm n L1) i ++ suf := by
  rw [resolveEvents, resolveEvents, List.foldl_append]
  exact foldl_trackKF_append rtm tm L2 (L1.foldl (step rtm tm) (initState n)) i

end LoopDrop
